import Mathlib

/-!
# Verification of the build coordinator core

A shallow embedding of `coordinator/main.go`: the status registry and
scheduler admission loop, the bounded output buffer, the log scrubbing of
per-builder HMAC tokens, the image-cache conditional update, the exit
waiter, the dashboard work poller, and the stale-VM reaper.

Strings are modelled as `List Char` (Go strings at the rune level) and byte
buffers as `List Nat`.
-/

namespace Coordinator

/-- The characters of the literal placeholder `"BUILDERKEY"` substituted for
the per-builder token by `buildStatus.logs`. -/
def builderkeyText : List Char := "BUILDERKEY".toList

/-- Model of `strings.Replace` with an empty pattern: the replacement is inserted at
every rune boundary, before the first character and after the last
(`Count(s, "") == RuneCount(s)+1` replacements). -/
def replaceEmpty (R : List Char) : List Char → List Char
  | [] => R
  | c :: rest => R ++ c :: replaceEmpty R rest

/-- Model of `strings.Replace` with a non-empty pattern `o :: oldTail`: greedy
left-to-right replacement of non-overlapping occurrences by `R`; after a
match the scan resumes just past the matched text. -/
def replaceCore (o : Char) (oldTail R : List Char) (s : List Char) : List Char :=
  match s with
  | [] => []
  | c :: rest =>
    if (o :: oldTail) <+: (c :: rest) then
      R ++ replaceCore o oldTail R (rest.drop oldTail.length)
    else
      c :: replaceCore o oldTail R rest
termination_by s.length
decreasing_by
  · simp only [List.length_drop, List.length_cons]
    omega
  · simp only [List.length_cons]
    omega

/-- Model of `strings.Replace(s, old, new, -1)` at the rune level. -/
def stringsReplace (s old new' : List Char) : List Char :=
  match old with
  | [] => replaceEmpty new' s
  | o :: oldTail => replaceCore o oldTail new' s

/-- The sixteen lowercase hexadecimal digit characters produced by
`fmt.Sprintf("%x", ...)`. -/
def hexDigits : List Char := "0123456789abcdef".toList

/-- One lowercase hex digit for a nibble value. -/
def hexDigit (n : Nat) : Char := hexDigits.getD (n % 16) '0'

/-- Model of `fmt.Sprintf("%x", bytes)`: each byte rendered as two lowercase hex
digits, high nibble first. -/
def hexEncode : List Nat → List Char
  | [] => []
  | b :: bs => hexDigit (b / 16) :: hexDigit b :: hexEncode bs

/-- Model of `builderKey(builder)` from the source: the empty string when the master
key is empty, otherwise the lowercase-hex encoding of the HMAC-MD5 digest of
the builder name under the master key. The digest computation lives in Go's
`crypto/hmac` / `crypto/md5` (outside this repository); it is abstracted as
the byte list `digest` (HMAC-MD5 always yields 16 bytes). -/
def builderKey (master digest : List Nat) : List Char :=
  if master = [] then [] else hexEncode digest

/-- Model of `buildStatus.logs()`: the output buffer with every occurrence of the
per-builder key replaced by the literal `BUILDERKEY`
(`strings.Replace(logs, key, "BUILDERKEY", -1)`). -/
def logsOf (key output : List Char) : List Char :=
  stringsReplace output key builderkeyText

/-- A `builderRev` is a build configuration name and a revision. -/
structure builderRev where
  name : String
  rev : String
deriving DecidableEq

/-- The runtime record for one attempted build (`buildStatus` in the
source). Timestamps are `Nat`; `done = 0` means still running. -/
structure buildStatus where
  brev : builderRev
  container : String
  start : Nat
  done : Nat
  succeeded : Bool
  output : List Nat
deriving DecidableEq

/-- The list `statusDone` is capped to `maxStatusDone` (source constant 30). -/
def maxStatusDone : Nat := 30

/-- The state guarded by `statusMu`: the live map `status` (modelled as an
association list with unique keys) and the recently-finished list
`statusDone`. -/
structure registryState where
  status : List (builderRev × buildStatus)
  statusDone : List buildStatus
deriving DecidableEq

/-- Go map lookup `status[work]`. -/
def lookupStatus (work : builderRev) : List (builderRev × buildStatus) → Option buildStatus
  | [] => none
  | (k, v) :: rest => if k = work then some v else lookupStatus work rest

/-- Go map `delete(status, work)`. -/
def eraseStatus (work : builderRev) (l : List (builderRev × buildStatus)) :
    List (builderRev × buildStatus) :=
  l.filter (fun p => p.1 ≠ work)

/-- Go map assignment `status[work] = st`. -/
def insertStatus (work : builderRev) (st : buildStatus)
    (l : List (builderRev × buildStatus)) : List (builderRev × buildStatus) :=
  eraseStatus work l ++ [(work, st)]

/-- Model of `mayBuildRev`: the admission gate checked under `statusMu`. -/
def mayBuildRev (maxBuilds : Nat) (work : builderRev) (s : registryState) : Bool :=
  decide (s.status.length < maxBuilds) && (lookupStatus work s.status).isNone

/-- Model of `setStatus`: insert into the live map. -/
def setStatus (work : builderRev) (st : buildStatus) (s : registryState) :
    registryState :=
  { s with status := insertStatus work st s.status }

/-- Model of `markDone`: if `work` is live, remove it and append its status to
`statusDone`, first shifting out the oldest entry when the list is at
`maxStatusDone`; otherwise a no-op. -/
def markDone (work : builderRev) (s : registryState) : registryState :=
  match lookupStatus work s.status with
  | none => s
  | some st =>
    { status := eraseStatus work s.status
      statusDone :=
        (if s.statusDone.length = maxStatusDone
         then s.statusDone.drop 1 else s.statusDone) ++ [st] }

/-- Model of `getStatus`: the live entry if any, else the first match in
`statusDone`. -/
def getStatus (work : builderRev) (s : registryState) : Option buildStatus :=
  match lookupStatus work s.status with
  | some st => some st
  | none => s.statusDone.find? (fun st => st.brev = work)

/-- One event consumed by the scheduler loop's `select`. A candidate carries
the environment's responses: the `docker ps` count returned by `numBuilds()`
and the result of `startBuilding` (`none` = launch error). -/
inductive schedEvent where
  | candidate (work : builderRev) (numBuilds : Nat) (started : Option buildStatus)
  | done (work : builderRev)
  | tick
deriving DecidableEq

/-- One iteration of the scheduler loop (`main`'s `select`). On a candidate:
check `mayBuildRev`, then the runtime gate `numBuilds() > *maxBuilds`, then
`startBuilding`; on success `setStatus`. On a completion: `markDone`. On a
tick: the registry is untouched. -/
def schedStep (maxBuilds : Nat) (s : registryState) (e : schedEvent) :
    registryState :=
  match e with
  | .candidate work numBuilds started =>
    if mayBuildRev maxBuilds work s && !(decide (numBuilds > maxBuilds)) then
      match started with
      | some st => setStatus work st s
      | none => s
    else s
  | .done work => markDone work s
  | .tick => s

/-- The registry at startup: both collections empty. -/
def initState : registryState := ⟨[], []⟩

/-- The scheduler loop run over a finite event sequence. -/
def schedRun (maxBuilds : Nat) (events : List schedEvent) : registryState :=
  events.foldl (schedStep maxBuilds) initState

/-- The keys of the live association list are pairwise distinct: the model
invariant that makes the list a faithful Go map. -/
def liveKeysNodup (s : registryState) : Prop :=
  (s.status.map Prod.fst).Nodup

/-- The fixed output ceiling `maxBufferSize = 2 << 20` from
`buildStatus.Write`. -/
def maxBufferSize : Nat := 2 <<< 20

/-- Model of `buildStatus.Write(p)`: truncate `p` so that the buffer never grows past
`maxBufferSize`, append, and return the count written and the (always
absent) error of `bytes.Buffer.Write`. -/
def bsWrite (output p : List Nat) : List Nat × Nat × Option String :=
  let p' := if output.length + p.length > maxBufferSize
            then p.take (maxBufferSize - output.length) else p
  (output ++ p', p'.length, none)

/-- The buffer contents after a sequence of `Write` calls on a fresh
`buildStatus`. -/
def writeAll (writes : List (List Nat)) : List Nat :=
  writes.foldl (fun out p => (bsWrite out p).1) []

/-- Outcome of one HTTP request made by `condUpdateImage`: a transport
error, or a response carrying a status code and a `Last-Modified` header. -/
inductive httpOutcome where
  | transportErr
  | response (statusCode : Nat) (lastModified : List Char)
deriving DecidableEq

/-- Model of `condUpdateImage` given the image's stored `lastMod`, the
outcomes of the `Head` and `Get` requests, and whether `docker load` of the
body succeeds. Returns an error, or the stored `lastMod` after the call.
After the `Get` the source runs `if cmd.Run(); err != nil { ... return err }`
before `ii.lastMod = res.Header.Get("Last-Modified"); return nil`: the result
of `cmd.Run()` sits in the if's init statement and is discarded, while `err`
still holds the (necessarily nil) error checked right after the `Get`, so the
error branch is never taken and `loadOk` cannot affect the result. -/
def condUpdateImage (lastMod : List Char) (head get : httpOutcome)
    (loadOk : Bool) : Except String (List Char) :=
  match head with
  | .transportErr => .error "Error checking url"
  | .response code lm =>
    if code ≠ 200 then .error "Error checking url: status"
    else if lm = lastMod then .ok lastMod
    else
      match get with
      | .transportErr => .error "Get after Head failed"
      | .response gcode glm =>
        if gcode ≠ 200 then .error "Get after Head failed"
        else .ok glm

/-- The ASCII whitespace characters recognized by `unicode.IsSpace` (the
non-ASCII space runes never occur in the `docker wait` output parsed here). -/
def goWhitespace : List Char := " \t\n\x0b\x0c\r".toList

/-- Model of `strings.TrimSpace`: strip leading and trailing whitespace. -/
def trimSpace (s : List Char) : List Char :=
  ((s.dropWhile (fun c => goWhitespace.contains c)).reverse.dropWhile
    (fun c => goWhitespace.contains c)).reverse

/-- Decimal value of one digit character, `none` for a non-digit. -/
def digitVal (c : Char) : Option Nat :=
  if '0' ≤ c ∧ c ≤ '9' then some (c.toNat - '0'.toNat) else none

def parseDigitsAux (acc : Nat) : List Char → Option Nat
  | [] => some acc
  | c :: rest =>
    match digitVal c with
    | some d => parseDigitsAux (acc * 10 + d) rest
    | none => none

/-- The digit run of `strconv.ParseUint`: at least one digit, digits only. -/
def parseDigits : List Char → Option Nat
  | [] => none
  | s => parseDigitsAux 0 s

/-- Model of `strconv.ParseInt(s, 10, 64)` (and `strconv.Atoi`): optional sign, then
decimal digits; errors on an empty string, a non-digit, or a value outside
the signed 64-bit range. -/
def parseInt64 (s : List Char) : Option Int :=
  let signed : Bool × List Char :=
    match s with
    | '+' :: rest => (false, rest)
    | '-' :: rest => (true, rest)
    | _ => (false, s)
  match parseDigits signed.2 with
  | none => none
  | some n =>
    if signed.1 then
      if n ≤ 2 ^ 63 then some (-(n : Int)) else none
    else
      if n < 2 ^ 63 then some (n : Int) else none

/-- The observable actions of the exit-waiter goroutine, in program order. -/
inductive waiterAction where
  | setDone (succeeded : Bool)
  | sendDone (work : builderRev)
  | dockerRm (container : String)
deriving DecidableEq

/-- Model of `buildStatus.setDone`: record the success flag and the completion
timestamp (the current time, a positive clock reading). -/
def setDone (st : buildStatus) (succeeded : Bool) (now : Nat) : buildStatus :=
  { st with succeeded := succeeded, done := now }

/-- The body of the goroutine spawned by `startBuilding` that runs
`docker wait`: trim the output, parse the exit code with `strconv.Atoi`,
mark the build done with success iff the wait command succeeded and the code
is 0, report on `donec`, remove the container. `waitErr` is whether
`docker wait` itself failed; `waitOutput` its combined output. -/
def exitWaiter (work : builderRev) (container : String) (waitErr : Bool)
    (waitOutput : List Char) : List waiterAction :=
  let output := trimSpace waitOutput
  let ok : Bool :=
    if waitErr then false
    else
      match parseInt64 output with
      | some exit => decide (exit = 0)
      | none => false
  [.setDone ok, .sendDone work, .dockerRm container]

/-- The `Data` object of the dashboard's `/todo` JSON response. -/
structure todoData where
  hash : String
  perfResults : List String
deriving DecidableEq

/-- The `Response` object of the dashboard's `/todo` JSON response. -/
structure todoResponse where
  kind : String
  data : todoData
deriving DecidableEq

/-- Outcome of the poller's HTTP GET: a transport error, or a response with
a status code and the JSON decoder's result on the body — the (possibly
partially filled) decoded value together with an optional decode error. -/
inductive fetchOutcome where
  | transportErr
  | response (statusCode : Nat) (jres : todoResponse) (decodeErr : Option String)
deriving DecidableEq

/-- Model of `findWork`: returns the revision string and the error, mirroring the
source's two return values. A non-200 status is an error before decoding;
the `Kind` check reads whatever the decoder produced even when decoding
failed, and the decode error is returned alongside. -/
def findWork (o : fetchOutcome) : String × Option String :=
  match o with
  | .transportErr => ("", some "transport error")
  | .response code jres decodeErr =>
    if code ≠ 200 then ("", some "unexpected http status")
    else
      (if jres.kind = "build-go-commit" then jres.data.hash else "", decodeErr)

/-- One cycle of `findWorkLoop` for one builder: an error is logged and
produces no candidate; otherwise a non-empty revision is sent on the work
channel. -/
def findWorkCycle (builderName : String) (o : fetchOutcome) : Option builderRev :=
  match findWork o with
  | (_, some _) => none
  | (rev, none) => if rev ≠ "" then some ⟨builderName, rev⟩ else none

/-- One metadata item of a listed instance. -/
structure metadataItem where
  key : String
  value : String
deriving DecidableEq

/-- One listed compute instance: its name and its metadata items
(`Metadata == nil` is modelled as `none`). -/
structure vmInstance where
  name : String
  metadata : Option (List metadataItem)
deriving DecidableEq

/-- Model of `cleanZoneVMs` on one zone, given the current Unix time and the outcome
of the first-page `instances.list` call: a listing failure is returned as an
error; otherwise every instance whose metadata has a `delete-at` item whose
value parses as a Unix timestamp strictly before `now` gets a delete request
(an unparsable value is logged and issues no delete for that item). -/
def cleanZoneVMs (now : Int) (listOutcome : Except String (List vmInstance)) :
    Except String (List String) :=
  match listOutcome with
  | .error e => .error ("listing instances: " ++ e)
  | .ok items =>
    .ok (items.flatMap (fun inst =>
      match inst.metadata with
      | none => []
      | some mdItems =>
        mdItems.flatMap (fun it =>
          if it.key = "delete-at" then
            match parseInt64 it.value.toList with
            | none => []
            | some unixDeadline => if now > unixDeadline then [inst.name] else []
          else [])))

/-- The zone loop of one `cleanUpOldVMs` cycle: each configured zone is
cleaned independently and a failing zone is only logged. -/
def cleanUpOldVMsCycle (now : Int)
    (zones : List (String × Except String (List vmInstance))) :
    List (String × Except String (List String)) :=
  zones.map (fun z => (z.1, cleanZoneVMs now z.2))

theorem replaceCore_nil (o : Char) (oldTail R : List Char) :
    replaceCore o oldTail R [] = [] := by
  rw [replaceCore]

theorem replaceCore_cons_pos {o : Char} {oldTail : List Char} (R : List Char)
    {c : Char} {rest : List Char} (h : (o :: oldTail) <+: (c :: rest)) :
    replaceCore o oldTail R (c :: rest)
      = R ++ replaceCore o oldTail R (rest.drop oldTail.length) := by
  rw [replaceCore]
  simp [h]

theorem replaceCore_cons_neg {o : Char} {oldTail : List Char} (R : List Char)
    {c : Char} {rest : List Char} (h : ¬ (o :: oldTail) <+: (c :: rest)) :
    replaceCore o oldTail R (c :: rest) = c :: replaceCore o oldTail R rest := by
  rw [replaceCore]
  simp [h]

/-- A non-empty list none of whose characters occur in `R` (non-empty) cannot
be a prefix of `R ++ t`. -/
theorem eq_nil_of_prefix_append {p R t : List Char} (hR : R ≠ [])
    (hd : ∀ c ∈ p, c ∉ R) (h : p <+: R ++ t) : p = [] := by
  cases p with
  | nil => rfl
  | cons a p' =>
    cases R with
    | nil => exact absurd rfl hR
    | cons r R' =>
      rw [List.cons_append] at h
      have har := (List.cons_prefix_cons.mp h).1
      exact absurd (har ▸ List.mem_cons_self r R') (hd a (List.mem_cons_self a p'))

/-- An occurrence of `k` inside `a ++ b` lies entirely inside `b` when no
character of `k` occurs in `a`. -/
theorem infix_append_right_of_disjoint {k : List Char} (hk : k ≠ []) :
    ∀ {a b : List Char}, (∀ c ∈ k, c ∉ a) → k <:+: a ++ b → k <:+: b := by
  intro a
  induction a with
  | nil => intro b _ h; simpa using h
  | cons x a' ih =>
    intro b hd h
    rw [List.cons_append] at h
    rcases List.infix_cons_iff.mp h with hpre | hinf
    · cases k with
      | nil => exact absurd rfl hk
      | cons y k' =>
        have hyx := (List.cons_prefix_cons.mp hpre).1
        exact absurd (hyx ▸ List.mem_cons_self x a')
          (hd y (List.mem_cons_self y k'))
    · exact ih (fun c hc hca' => hd c hc (List.mem_cons_of_mem x hca')) hinf

/-- If `p` shares no character with the non-empty replacement `R`, then a
prefix of the replaced text is a prefix of the original text. -/
theorem prefix_replaceCore (o : Char) (oldTail R : List Char) (hR : R ≠ []) :
    ∀ (s p : List Char), (∀ c ∈ p, c ∉ R) →
      p <+: replaceCore o oldTail R s → p <+: s := by
  have main : ∀ n : Nat, ∀ s : List Char, s.length ≤ n →
      ∀ p : List Char, (∀ c ∈ p, c ∉ R) →
        p <+: replaceCore o oldTail R s → p <+: s := by
    intro n
    induction n with
    | zero =>
      intro s hs p hd h
      have : s = [] := List.eq_nil_of_length_eq_zero (Nat.le_zero.mp hs)
      subst this
      rwa [replaceCore_nil] at h
    | succ n ih =>
      intro s hs p hd h
      match s with
      | [] => rwa [replaceCore_nil] at h
      | c :: rest =>
        by_cases hp : (o :: oldTail) <+: (c :: rest)
        · rw [replaceCore_cons_pos R hp] at h
          have := eq_nil_of_prefix_append hR hd h
          simp [this]
        · rw [replaceCore_cons_neg R hp] at h
          cases p with
          | nil => exact List.nil_prefix
          | cons a p' =>
            obtain ⟨hac, hp'⟩ := List.cons_prefix_cons.mp h
            have hrest : rest.length ≤ n := by
              simp only [List.length_cons] at hs
              omega
            have hd' : ∀ x ∈ p', x ∉ R :=
              fun x hx => hd x (List.mem_cons_of_mem a hx)
            exact List.cons_prefix_cons.mpr ⟨hac, ih rest hrest p' hd' hp'⟩
  intro s
  exact main s.length s (Nat.le_refl _)

/-- Greedy replacement leaves no occurrence of the (non-empty) pattern when
the pattern shares no character with the non-empty replacement text. -/
theorem not_infix_replaceCore (o : Char) (oldTail R : List Char) (hR : R ≠ [])
    (hd : ∀ c ∈ o :: oldTail, c ∉ R) :
    ∀ s : List Char, ¬ (o :: oldTail) <:+: replaceCore o oldTail R s := by
  have main : ∀ n : Nat, ∀ s : List Char, s.length ≤ n →
      ¬ (o :: oldTail) <:+: replaceCore o oldTail R s := by
    intro n
    induction n with
    | zero =>
      intro s hs h
      have : s = [] := List.eq_nil_of_length_eq_zero (Nat.le_zero.mp hs)
      subst this
      rw [replaceCore_nil] at h
      exact absurd (List.eq_nil_of_sublist_nil h.sublist) (by simp)
    | succ n ih =>
      intro s hs h
      match s with
      | [] =>
        rw [replaceCore_nil] at h
        exact absurd (List.eq_nil_of_sublist_nil h.sublist) (by simp)
      | c :: rest =>
        by_cases hp : (o :: oldTail) <+: (c :: rest)
        · rw [replaceCore_cons_pos R hp] at h
          have h2 := infix_append_right_of_disjoint (by simp) hd h
          have hlen : (rest.drop oldTail.length).length ≤ n := by
            simp only [List.length_cons] at hs
            simp only [List.length_drop]
            omega
          exact ih (rest.drop oldTail.length) hlen h2
        · rw [replaceCore_cons_neg R hp] at h
          rcases List.infix_cons_iff.mp h with hpre | hinf
          · obtain ⟨hoc, htail⟩ := List.cons_prefix_cons.mp hpre
            have hd' : ∀ x ∈ oldTail, x ∉ R :=
              fun x hx => hd x (List.mem_cons_of_mem o hx)
            have : oldTail <+: rest :=
              prefix_replaceCore o oldTail R hR rest oldTail hd' htail
            exact hp (List.cons_prefix_cons.mpr ⟨hoc, this⟩)
          · have hlen : rest.length ≤ n := by
              simp only [List.length_cons] at hs
              omega
            exact ih rest hlen hinf
  intro s
  exact main s.length s (Nat.le_refl _)

theorem hexDigit_mem (n : Nat) : hexDigit n ∈ hexDigits := by
  have hfin : ∀ k : Fin 16, hexDigits.getD k.val '0' ∈ hexDigits := by decide
  have h : n % 16 < 16 := Nat.mod_lt _ (by omega)
  exact hfin ⟨n % 16, h⟩

theorem hexEncode_mem : ∀ (bs : List Nat), ∀ c ∈ hexEncode bs, c ∈ hexDigits := by
  intro bs
  induction bs with
  | nil => intro c hc; simp [hexEncode] at hc
  | cons b bs ih =>
    intro c hc
    rcases hc with _ | ⟨_, hc⟩
    · exact hexDigit_mem (b / 16)
    · rcases hc with _ | ⟨_, hc⟩
      · exact hexDigit_mem b
      · exact ih c hc

theorem hexDigits_disjoint_builderkeyText :
    ∀ c ∈ hexDigits, c ∉ builderkeyText := by decide

/-- C4: for every builder with a non-empty master key, the text returned by
`buildStatus.logs()` never contains the lowercase-hex HMAC-MD5 token of that
builder as a substring, whatever the output buffer holds. -/
theorem logs_never_contains_builder_key (master digest : List Nat)
    (output : List Char) (hm : master ≠ []) (hd : digest ≠ []) :
    ¬ builderKey master digest <:+: logsOf (builderKey master digest) output := by
  have hkey : builderKey master digest = hexEncode digest := by
    simp [builderKey, hm]
  rw [hkey]
  match digest, hd with
  | b :: bs, _ =>
    show ¬ (hexDigit (b / 16) :: (hexDigit b :: hexEncode bs)) <:+:
      logsOf (hexEncode (b :: bs)) output
    have hdisj : ∀ c ∈ hexDigit (b / 16) :: (hexDigit b :: hexEncode bs),
        c ∉ builderkeyText :=
      fun c hc => hexDigits_disjoint_builderkeyText c (hexEncode_mem (b :: bs) c hc)
    exact not_infix_replaceCore (hexDigit (b / 16)) (hexDigit b :: hexEncode bs)
      builderkeyText (by decide) hdisj output

/-- Witness for C4 at a concrete master key, digest and output. -/
theorem logs_never_contains_builder_key_witness :
    ¬ builderKey [1] [0] <:+: logsOf (builderKey [1] [0]) ['a', '0', '0', 'b'] :=
  logs_never_contains_builder_key [1] [0] ['a', '0', '0', 'b']
    (by decide) (by decide)

theorem length_replaceEmpty (R : List Char) :
    ∀ s : List Char, (replaceEmpty R s).length = s.length + R.length * (s.length + 1) := by
  intro s
  induction s with
  | nil => simp [replaceEmpty]
  | cons c rest ih =>
    simp only [replaceEmpty, List.length_append, List.length_cons, ih]
    ring

/-- C10: with an empty master key `builderKey` returns the empty string, and
`buildStatus.logs()` then replaces every occurrence of the empty string:
`BUILDERKEY` is inserted at every character boundary of the buffered output,
before the first character and after the last, so the response is never the
raw captured output when the output is non-empty. -/
theorem logs_empty_key_inserts_everywhere (output : List Char) (h : output ≠ []) :
    (∀ digest : List Nat, builderKey [] digest = []) ∧
    logsOf [] [] = builderkeyText ∧
    (∀ (c : Char) (rest : List Char),
      logsOf [] (c :: rest) = builderkeyText ++ c :: logsOf [] rest) ∧
    logsOf [] output ≠ output := by
  refine ⟨fun digest => by simp [builderKey], rfl, fun c rest => rfl, ?_⟩
  intro hcontra
  have hlen := congrArg List.length hcontra
  have : (logsOf [] output).length
      = output.length + builderkeyText.length * (output.length + 1) :=
    length_replaceEmpty builderkeyText output
  rw [this] at hlen
  have hb : builderkeyText.length = 10 := by decide
  rw [hb] at hlen
  omega

/-- Witness for C10 at a concrete one-character output. -/
theorem logs_empty_key_inserts_everywhere_witness :
    logsOf [] ['a'] ≠ ['a'] :=
  (logs_empty_key_inserts_everywhere ['a'] (by decide)).2.2.2

theorem length_eraseStatus_le (work : builderRev) (l : List (builderRev × buildStatus)) :
    (eraseStatus work l).length ≤ l.length :=
  List.length_filter_le _ l

theorem schedStep_status_length (maxBuilds : Nat) (s : registryState)
    (e : schedEvent) (h : s.status.length ≤ maxBuilds) :
    (schedStep maxBuilds s e).status.length ≤ maxBuilds := by
  match e with
  | .tick => exact h
  | .done work =>
    show (markDone work s).status.length ≤ maxBuilds
    unfold markDone
    match lookupStatus work s.status with
    | none => exact h
    | some st =>
      exact Nat.le_trans (length_eraseStatus_le work s.status) h
  | .candidate work numBuilds started =>
    unfold schedStep
    by_cases hg : mayBuildRev maxBuilds work s && !(decide (numBuilds > maxBuilds))
    · simp only [hg, if_true]
      match started with
      | none => exact h
      | some st =>
        have hlt : s.status.length < maxBuilds := by
          have := (Bool.and_eq_true _ _).mp hg
          have := (Bool.and_eq_true _ _).mp this.1
          exact of_decide_eq_true this.1
        show (insertStatus work st s.status).length ≤ maxBuilds
        unfold insertStatus
        rw [List.length_append]
        have := length_eraseStatus_le work s.status
        simp only [List.length_cons, List.length_nil]
        omega
    · simp only [hg, if_false]
      exact h

/-- C1: over every interleaving of candidate, completion and tick events the
scheduler loop keeps the live map within the configured cap: admission
requires `len(status) < *maxBuilds` before `setStatus` inserts, and only the
scheduler mutates the map. -/
theorem live_count_bounded (maxBuilds : Nat) (events : List schedEvent) :
    (schedRun maxBuilds events).status.length ≤ maxBuilds := by
  have main : ∀ (es : List schedEvent) (s : registryState),
      s.status.length ≤ maxBuilds →
      (es.foldl (schedStep maxBuilds) s).status.length ≤ maxBuilds := by
    intro es
    induction es with
    | nil => intro s h; exact h
    | cons e es ih =>
      intro s h
      exact ih _ (schedStep_status_length maxBuilds s e h)
  exact main events initState (by simp [initState])

theorem not_mem_keys_eraseStatus (work : builderRev)
    (l : List (builderRev × buildStatus)) :
    work ∉ (eraseStatus work l).map Prod.fst := by
  intro hmem
  rcases List.mem_map.mp hmem with ⟨p, hp, hfst⟩
  have := List.of_mem_filter hp
  simp only [decide_not, Bool.not_eq_true', decide_eq_false_iff_not] at this
  exact this hfst

theorem keys_eraseStatus_nodup (work : builderRev)
    (l : List (builderRev × buildStatus)) (h : (l.map Prod.fst).Nodup) :
    ((eraseStatus work l).map Prod.fst).Nodup :=
  List.Nodup.sublist (List.Sublist.map Prod.fst (List.filter_sublist l)) h

theorem keys_insertStatus_nodup (work : builderRev) (st : buildStatus)
    (l : List (builderRev × buildStatus)) (h : (l.map Prod.fst).Nodup) :
    ((insertStatus work st l).map Prod.fst).Nodup := by
  unfold insertStatus
  rw [List.map_append]
  simp only [List.map_cons, List.map_nil]
  apply List.Nodup.append (keys_eraseStatus_nodup work l h) (List.nodup_singleton work)
  intro a ha hb
  have hab : a = work := List.mem_singleton.mp hb
  rw [hab] at ha
  exact not_mem_keys_eraseStatus work l ha

theorem schedStep_keys_nodup (maxBuilds : Nat) (s : registryState)
    (e : schedEvent) (h : liveKeysNodup s) :
    liveKeysNodup (schedStep maxBuilds s e) := by
  match e with
  | .tick => exact h
  | .done work =>
    show liveKeysNodup (markDone work s)
    unfold markDone
    match lookupStatus work s.status with
    | none => exact h
    | some st => exact keys_eraseStatus_nodup work s.status h
  | .candidate work numBuilds started =>
    unfold schedStep
    by_cases hg : mayBuildRev maxBuilds work s && !(decide (numBuilds > maxBuilds))
    · simp only [hg, if_true]
      match started with
      | none => exact h
      | some st => exact keys_insertStatus_nodup work st s.status h
    · simp only [hg, if_false]
      exact h

/-- C5: (a) `mayBuild` is true iff the live count is below the cap and no
live entry exists for the key; (b) the live map reached by any event
sequence has at most one entry per `builderRev` key; (c) a candidate whose
key is already live is denied admission and leaves the registry unchanged. -/
theorem at_most_one_live_per_rev (maxBuilds : Nat) :
    (∀ (work : builderRev) (s : registryState),
      mayBuildRev maxBuilds work s = true ↔
        (s.status.length < maxBuilds ∧ lookupStatus work s.status = none)) ∧
    (∀ events : List schedEvent, liveKeysNodup (schedRun maxBuilds events)) ∧
    (∀ (work : builderRev) (s : registryState) (numBuilds : Nat)
        (started : Option buildStatus) (st : buildStatus),
      lookupStatus work s.status = some st →
      schedStep maxBuilds s (.candidate work numBuilds started) = s) := by
  refine ⟨fun work s => ?_, fun events => ?_, fun work s numBuilds started st hlive => ?_⟩
  · unfold mayBuildRev
    rw [Bool.and_eq_true, decide_eq_true_eq, Option.isNone_iff_eq_none]
  · have main : ∀ (es : List schedEvent) (s : registryState), liveKeysNodup s →
        liveKeysNodup (es.foldl (schedStep maxBuilds) s) := by
      intro es
      induction es with
      | nil => intro s h; exact h
      | cons e es ih => intro s h; exact ih _ (schedStep_keys_nodup maxBuilds s e h)
    exact main events initState (by simp [liveKeysNodup, initState])
  · unfold schedStep
    have : mayBuildRev maxBuilds work s = false := by
      unfold mayBuildRev
      rw [hlive]
      simp
    simp [this]

/-- Witness for C5 at a concrete cap, event list and duplicate candidate. -/
theorem at_most_one_live_per_rev_witness :
    mayBuildRev 6 ⟨"linux-amd64", "aaaa"⟩ initState = true ∧
    liveKeysNodup (schedRun 6 [schedEvent.tick]) ∧
    schedStep 6
        ⟨[(⟨"linux-amd64", "aaaa"⟩,
           ⟨⟨"linux-amd64", "aaaa"⟩, "c0", 1, 0, false, []⟩)], []⟩
        (.candidate ⟨"linux-amd64", "aaaa"⟩ 0
          (some ⟨⟨"linux-amd64", "aaaa"⟩, "c1", 2, 0, false, []⟩))
      = ⟨[(⟨"linux-amd64", "aaaa"⟩,
           ⟨⟨"linux-amd64", "aaaa"⟩, "c0", 1, 0, false, []⟩)], []⟩ := by
  refine ⟨?_, (at_most_one_live_per_rev 6).2.1 [schedEvent.tick], ?_⟩
  · exact ((at_most_one_live_per_rev 6).1 _ _).mpr (by constructor <;> decide)
  · exact (at_most_one_live_per_rev 6).2.2 _ _ 0 _
      ⟨⟨"linux-amd64", "aaaa"⟩, "c0", 1, 0, false, []⟩ (by decide)

theorem lookupStatus_eraseStatus (work : builderRev)
    (l : List (builderRev × buildStatus)) :
    lookupStatus work (eraseStatus work l) = none := by
  induction l with
  | nil => rfl
  | cons p rest ih =>
    obtain ⟨k, v⟩ := p
    by_cases hp : k = work
    · simpa [eraseStatus, List.filter_cons, hp] using ih
    · simp only [eraseStatus, List.filter_cons] at ih ⊢
      rw [if_pos (by simpa using hp)]
      rw [lookupStatus]
      simp only [hp, if_false]
      exact ih

theorem markDone_statusDone_length (work : builderRev) (s : registryState)
    (h : s.statusDone.length ≤ maxStatusDone) :
    (markDone work s).statusDone.length ≤ maxStatusDone := by
  unfold markDone
  match lookupStatus work s.status with
  | none => exact h
  | some st =>
    simp only [List.length_append, List.length_cons, List.length_nil]
    by_cases hc : s.statusDone.length = maxStatusDone
    · simp only [hc, if_true, List.length_drop]
      unfold maxStatusDone
      omega
    · simp only [hc, if_false]
      omega

theorem schedStep_statusDone_length (maxBuilds : Nat) (s : registryState)
    (e : schedEvent) (h : s.statusDone.length ≤ maxStatusDone) :
    (schedStep maxBuilds s e).statusDone.length ≤ maxStatusDone := by
  match e with
  | .tick => exact h
  | .done work => exact markDone_statusDone_length work s h
  | .candidate work numBuilds started =>
    unfold schedStep
    by_cases hg : mayBuildRev maxBuilds work s && !(decide (numBuilds > maxBuilds))
    · simp only [hg, if_true]
      match started with
      | none => exact h
      | some st => exact h
    · simp only [hg, if_false]
      exact h

/-- C6: when the key is live, `markDone` removes it from the live map and
appends its status to the recent list, shifting out the oldest entry first
when the list holds exactly `maxStatusDone` (30) entries — so the new list
is a suffix of the old list extended by the newcomer (completion order) and
the length never exceeds 30 over any run; when the key is not live,
`markDone` changes nothing. -/
theorem markDone_spec :
    (∀ (s : registryState) (work : builderRev) (st : buildStatus),
      lookupStatus work s.status = some st →
        markDone work s =
          ⟨eraseStatus work s.status,
           (if s.statusDone.length = maxStatusDone
            then s.statusDone.drop 1 else s.statusDone) ++ [st]⟩ ∧
        lookupStatus work (markDone work s).status = none ∧
        (markDone work s).statusDone <:+ s.statusDone ++ [st]) ∧
    (∀ (s : registryState) (work : builderRev),
      lookupStatus work s.status = none → markDone work s = s) ∧
    (∀ (maxBuilds : Nat) (events : List schedEvent),
      (schedRun maxBuilds events).statusDone.length ≤ maxStatusDone) := by
  refine ⟨fun s work st hlive => ?_, fun s work hmiss => ?_, fun maxBuilds events => ?_⟩
  · have heq : markDone work s =
        ⟨eraseStatus work s.status,
         (if s.statusDone.length = maxStatusDone
          then s.statusDone.drop 1 else s.statusDone) ++ [st]⟩ := by
      unfold markDone
      rw [hlive]
    refine ⟨heq, ?_, ?_⟩
    · rw [heq]
      exact lookupStatus_eraseStatus work s.status
    · rw [heq]
      by_cases hc : s.statusDone.length = maxStatusDone
      · simp only [hc, if_true]
        exact ⟨s.statusDone.take 1, by
          rw [← List.append_assoc, List.take_append_drop]⟩
      · simp only [hc, if_false]
        exact ⟨[], rfl⟩
  · unfold markDone
    rw [hmiss]
  · have main : ∀ (es : List schedEvent) (s : registryState),
        s.statusDone.length ≤ maxStatusDone →
        (es.foldl (schedStep maxBuilds) s).statusDone.length ≤ maxStatusDone := by
      intro es
      induction es with
      | nil => intro s h; exact h
      | cons e es ih =>
        intro s h
        exact ih _ (schedStep_statusDone_length maxBuilds s e h)
    exact main events initState (by simp [initState, maxStatusDone])

/-- Witness for C6: a live entry is moved to the recent list, a missing key
is a no-op, and a concrete run keeps the recent list within 30. -/
theorem markDone_spec_witness :
    markDone ⟨"linux-amd64", "aaaa"⟩
        ⟨[(⟨"linux-amd64", "aaaa"⟩,
           ⟨⟨"linux-amd64", "aaaa"⟩, "c0", 1, 0, false, []⟩)], []⟩
      = ⟨[], [⟨⟨"linux-amd64", "aaaa"⟩, "c0", 1, 0, false, []⟩]⟩ ∧
    markDone ⟨"linux-amd64", "bbbb"⟩ initState = initState ∧
    (schedRun 6 [schedEvent.tick]).statusDone.length ≤ maxStatusDone := by
  refine ⟨?_, markDone_spec.2.1 initState ⟨"linux-amd64", "bbbb"⟩ (by decide),
    markDone_spec.2.2 6 [schedEvent.tick]⟩
  have h := (markDone_spec.1
    ⟨[(⟨"linux-amd64", "aaaa"⟩,
       ⟨⟨"linux-amd64", "aaaa"⟩, "c0", 1, 0, false, []⟩)], []⟩
    ⟨"linux-amd64", "aaaa"⟩
    ⟨⟨"linux-amd64", "aaaa"⟩, "c0", 1, 0, false, []⟩ (by decide)).1
  rw [h]
  decide

theorem bsWrite_length_le (output p : List Nat) (h : output.length ≤ maxBufferSize) :
    (bsWrite output p).1.length ≤ maxBufferSize := by
  unfold bsWrite
  by_cases hc : output.length + p.length > maxBufferSize
  · simp only [hc, if_true, List.length_append, List.length_take]
    omega
  · simp only [hc, if_false, List.length_append]
    omega

/-- C3: the output buffer never exceeds the 2 << 20 ceiling over any
sequence of writes; a write that would overflow fills the buffer to exactly
the ceiling; and `Write` never reports an error. -/
theorem output_buffer_bounded :
    (∀ writes : List (List Nat), (writeAll writes).length ≤ maxBufferSize) ∧
    (∀ output p : List Nat, output.length ≤ maxBufferSize →
      output.length + p.length > maxBufferSize →
      (bsWrite output p).1.length = maxBufferSize) ∧
    (∀ output p : List Nat, (bsWrite output p).2.2 = none) := by
  refine ⟨fun writes => ?_, fun output p hle hov => ?_, fun output p => rfl⟩
  · have main : ∀ (ws : List (List Nat)) (out : List Nat),
        out.length ≤ maxBufferSize →
        (ws.foldl (fun out p => (bsWrite out p).1) out).length ≤ maxBufferSize := by
      intro ws
      induction ws with
      | nil => intro out h; exact h
      | cons p ws ih =>
        intro out h
        exact ih _ (bsWrite_length_le out p h)
    exact main writes [] (by simp)
  · unfold bsWrite
    simp only [hov, if_true, List.length_append, List.length_take]
    omega

/-- Witness for C3: an overflowing write on a concrete small instance of the
bound structure. -/
theorem output_buffer_bounded_witness :
    (writeAll [[1, 2, 3]]).length ≤ maxBufferSize ∧
    (bsWrite (List.replicate maxBufferSize 0) [7]).1.length = maxBufferSize := by
  refine ⟨output_buffer_bounded.1 [[1, 2, 3]],
    output_buffer_bounded.2.1 (List.replicate maxBufferSize 0) [7] ?_ ?_⟩
  · rw [List.length_replicate]
  · rw [List.length_replicate, List.length_cons, List.length_nil]
    omega

/-- C2 counterexample: with a stale stored tag, successful `Head` and `Get`,
and a **failing** `docker load`, `condUpdateImage` still returns success and
stores the new modification tag — the claimed error propagation and
unchanged tag do not happen. The enabling slip is `if cmd.Run(); err != nil`
discarding the load command's result. -/
theorem condUpdateImage_ignores_load_failure :
    ∀ loadOk : Bool,
      condUpdateImage []
        (httpOutcome.response 200 ['n', 'e', 'w'])
        (httpOutcome.response 200 ['n', 'e', 'w'])
        loadOk
      = .ok ['n', 'e', 'w'] := by
  intro loadOk
  rfl

/-- C7: the exit waiter emits exactly `setDone`, then the completion report,
then the container removal; the recorded flag is true iff `docker wait`
succeeded and its parsed output is exit code 0 (a non-zero exit is recorded
as `succeeded = false`, not as an error); and `setDone` sets the done
timestamp. -/
theorem exit_waiter_spec (work : builderRev) (container : String)
    (waitErr : Bool) (waitOutput : List Char) :
    ∃ ok : Bool,
      exitWaiter work container waitErr waitOutput
        = [.setDone ok, .sendDone work, .dockerRm container] ∧
      (ok = true ↔
        (waitErr = false ∧ parseInt64 (trimSpace waitOutput) = some 0)) ∧
      (∀ (st : buildStatus) (now : Nat),
        (setDone st ok now).done = now ∧ (setDone st ok now).succeeded = ok) := by
  refine ⟨_, rfl, ?_, fun st now => ⟨rfl, rfl⟩⟩
  match waitErr with
  | true => simp
  | false =>
    match hp : parseInt64 (trimSpace waitOutput) with
    | none => simp [hp]
    | some exit => simp [hp]

/-- C8: a poll cycle emits a candidate iff the request returned status 200,
decoded without error, the decoded `Kind` is `"build-go-commit"` and the
`Hash` is non-empty — and the candidate is exactly `(builder, hash)`; a
transport error, a non-200 status, or a decode error yields an error (which
the loop logs) and no candidate. -/
theorem poller_candidate_filter (builderName : String) (o : fetchOutcome) :
    (∀ br : builderRev,
      findWorkCycle builderName o = some br ↔
        ∃ jres : todoResponse,
          o = .response 200 jres none ∧ jres.kind = "build-go-commit" ∧
          jres.data.hash ≠ "" ∧ br = ⟨builderName, jres.data.hash⟩) ∧
    ((o = .transportErr ∨
      (∃ code jres decodeErr, o = .response code jres decodeErr ∧ code ≠ 200) ∨
      (∃ jres err, o = .response 200 jres (some err))) →
      (findWork o).2.isSome = true ∧ findWorkCycle builderName o = none) := by
  constructor
  · intro br
    match o with
    | .transportErr =>
      simp [findWorkCycle, findWork]
    | .response code jres decodeErr =>
      by_cases hc : code = 200
      · subst hc
        match decodeErr with
        | some e =>
          simp [findWorkCycle, findWork]
        | none =>
          by_cases hk : jres.kind = "build-go-commit"
          · by_cases hh : jres.data.hash = ""
            · simp [findWorkCycle, findWork, hk, hh]
            · simp only [findWorkCycle, findWork]
              rw [if_neg (by omega : ¬ (200 : Nat) ≠ 200)]
              rw [if_pos hk]
              show (if jres.data.hash ≠ "" then
                  some (⟨builderName, jres.data.hash⟩ : builderRev)
                else none) = some br ↔ _
              rw [if_pos hh]
              constructor
              · intro h
                exact ⟨jres, rfl, hk, hh, (Option.some_inj.mp h).symm⟩
              · rintro ⟨jres', heq, -, -, hbr⟩
                have : jres' = jres := by
                  injection heq with _ h1 _
                  exact h1.symm
                rw [hbr, this]
          · simp [findWorkCycle, findWork, hk]
      · simp [findWorkCycle, findWork, hc]
  · intro herr
    rcases herr with h | ⟨code, jres, decodeErr, h, hc⟩ | ⟨jres, err, h⟩
    · subst h
      exact ⟨rfl, rfl⟩
    · subst h
      constructor
      · simp [findWork, hc]
      · simp [findWorkCycle, findWork, hc]
    · subst h
      constructor
      · simp [findWork]
      · simp [findWorkCycle, findWork]

/-- Witness for C8: a successful response emits the candidate; a non-200
response emits nothing. -/
theorem poller_candidate_filter_witness :
    findWorkCycle "linux-amd64"
        (.response 200 ⟨"build-go-commit", ⟨"aaaa", []⟩⟩ none)
      = some ⟨"linux-amd64", "aaaa"⟩ ∧
    findWorkCycle "linux-amd64"
        (.response 500 ⟨"build-go-commit", ⟨"aaaa", []⟩⟩ none) = none := by
  constructor
  · exact ((poller_candidate_filter "linux-amd64" _).1 _).mpr
      ⟨⟨"build-go-commit", ⟨"aaaa", []⟩⟩, rfl, rfl, by decide, rfl⟩
  · exact ((poller_candidate_filter "linux-amd64" _).2
      (Or.inr (Or.inl ⟨500, _, none, rfl, by decide⟩))).2

/-- C9: on a successfully listed zone page, a delete is issued for an
instance name iff some listed instance carries that name and a metadata item
with key `delete-at` whose value parses as a base-10 integer strictly below
the current Unix time (so parse failures delete nothing); a listing failure
yields an error for that zone; and a failing zone leaves every other zone of
the cycle untouched. -/
theorem vm_reaper_delete_condition (now : Int) :
    (∀ (items : List vmInstance) (nm : String) (deletes : List String),
      cleanZoneVMs now (.ok items) = .ok deletes →
      (nm ∈ deletes ↔
        ∃ inst ∈ items, inst.name = nm ∧
          ∃ mdItems, inst.metadata = some mdItems ∧
            ∃ it ∈ mdItems, it.key = "delete-at" ∧
              ∃ d : Int, parseInt64 it.value.toList = some d ∧ now > d)) ∧
    (∀ e : String,
      cleanZoneVMs now (.error e) = .error ("listing instances: " ++ e)) ∧
    (∀ (zs₁ zs₂ : List (String × Except String (List vmInstance)))
        (zone e : String),
      cleanUpOldVMsCycle now (zs₁ ++ (zone, .error e) :: zs₂)
        = cleanUpOldVMsCycle now zs₁
          ++ (zone, .error ("listing instances: " ++ e)) :: cleanUpOldVMsCycle now zs₂) := by
  refine ⟨fun items nm deletes hok => ?_, fun e => rfl, fun zs₁ zs₂ zone e => ?_⟩
  · have hdel : deletes = items.flatMap (fun inst =>
        match inst.metadata with
        | none => []
        | some mdItems =>
          mdItems.flatMap (fun it =>
            if it.key = "delete-at" then
              match parseInt64 it.value.toList with
              | none => []
              | some unixDeadline => if now > unixDeadline then [inst.name] else []
            else [])) := by
      have := hok
      unfold cleanZoneVMs at this
      exact (Except.ok.injEq _ _).mp this.symm
    subst hdel
    rw [List.mem_flatMap]
    constructor
    · rintro ⟨inst, hinst, hmem⟩
      refine ⟨inst, hinst, ?_⟩
      match hmd : inst.metadata with
      | none => rw [hmd] at hmem; exact absurd hmem (by simp)
      | some mdItems =>
        rw [hmd] at hmem
        rw [List.mem_flatMap] at hmem
        obtain ⟨it, hit, hm⟩ := hmem
        by_cases hk : it.key = "delete-at"
        · rw [if_pos hk] at hm
          match hp : parseInt64 it.value.toList with
          | none =>
            rw [hp] at hm
            exact absurd (show nm ∈ ([] : List String) from hm) (by simp)
          | some d =>
            rw [hp] at hm
            have hm2 : nm ∈ (if now > d then [inst.name] else []) := hm
            by_cases hlt : now > d
            · rw [if_pos hlt] at hm2
              have hnm : inst.name = nm := (List.mem_singleton.mp hm2).symm
              exact ⟨hnm, mdItems, rfl, it, hit, hk, d, hp, hlt⟩
            · rw [if_neg hlt] at hm2
              exact absurd hm2 (by simp)
        · rw [if_neg hk] at hm
          exact absurd hm (by simp)
    · rintro ⟨inst, hinst, hnm, mdItems, hmd, it, hit, hk, d, hp, hlt⟩
      refine ⟨inst, hinst, ?_⟩
      rw [hmd, List.mem_flatMap]
      refine ⟨it, hit, ?_⟩
      rw [if_pos hk, hp]
      show nm ∈ (if now > d then [inst.name] else [])
      rw [if_pos hlt]
      simp [hnm]
  · unfold cleanUpOldVMsCycle
    rw [List.map_append, List.map_cons]
    rfl

/-- Witness for C9: a page with one expired VM, one future VM and one
malformed `delete-at` value deletes exactly the expired one. -/
theorem vm_reaper_delete_condition_witness :
    ("vm-a" ∈ ["vm-a"] ↔
      ∃ inst ∈ [(⟨"vm-a", some [⟨"delete-at", "50"⟩]⟩ : vmInstance),
                ⟨"vm-b", some [⟨"delete-at", "700"⟩]⟩,
                ⟨"vm-c", some [⟨"delete-at", "oops"⟩]⟩],
        inst.name = "vm-a" ∧
        ∃ mdItems, inst.metadata = some mdItems ∧
          ∃ it ∈ mdItems, it.key = "delete-at" ∧
            ∃ d : Int, parseInt64 it.value.toList = some d ∧ (100 : Int) > d) := by
  refine (vm_reaper_delete_condition 100).1
    [⟨"vm-a", some [⟨"delete-at", "50"⟩]⟩,
     ⟨"vm-b", some [⟨"delete-at", "700"⟩]⟩,
     ⟨"vm-c", some [⟨"delete-at", "oops"⟩]⟩] "vm-a" ["vm-a"] ?_
  rfl

end Coordinator
